import Mathlib

/-!
Verification of the git-manager frontend core: diff sectionizing and statistics
(`parseDiffByFile`, `getDiffStats` in the BranchGraph component), per-line diff
numbering, SVG edge rendering (`renderConnections`), the graph-view mutation
handlers, the debounced file-watch refresh, the local-repository store, and the
commit-graph column-assignment algorithm described by the specification.

All string primitives used by the TypeScript source (`String.prototype.split`,
`String.prototype.startsWith`, the two regular expressions) are embedded as
executable functions over `List Char`.
-/

namespace GitManager

/-- Models JS `s.startsWith(pre)`: `pre` is a prefix of `s`. -/
def strStarts (s pre : String) : Bool := pre.data.isPrefixOf s.data

/-- Models JS `s.split('\n')` on the character list: splits at every newline,
keeping empty segments, so the empty list yields one empty segment. -/
def splitNl : List Char → List (List Char)
  | [] => [[]]
  | c :: rest =>
    if c = '\n' then [] :: splitNl rest
    else
      match splitNl rest with
      | [] => [[c]]
      | h :: t => (c :: h) :: t

/-- Models JS `diff.split('\n')` producing strings. -/
def splitLines (s : String) : List String := (splitNl s.data).map fun cs => ⟨cs⟩

/-- Drops characters up to and including the first occurrence of `pat`;
`none` when `pat` does not occur. Models the leftmost-match search of a
JS regex for a literal pattern. -/
def dropToFirst (pat : List Char) : List Char → Option (List Char)
  | [] => if pat.isPrefixOf ([] : List Char) then some [] else none
  | c :: rest =>
    if pat.isPrefixOf (c :: rest) then some ((c :: rest).drop pat.length)
    else dropToFirst pat rest

/-- Splits `s` around the last occurrence of `pat`, removing `pat` itself;
`none` when `pat` does not occur. Models the split a greedy `(.*)` group
induces before a literal pattern. -/
def splitAtLast (pat : List Char) : List Char → Option (List Char × List Char)
  | [] => none
  | c :: rest =>
    match splitAtLast pat rest with
    | some (pre, post) => some (c :: pre, post)
    | none =>
      if pat.isPrefixOf (c :: rest) then some ([], (c :: rest).drop pat.length)
      else none

/-- Models the JS regex match `line.match(/diff --git a\/(.*) b\/(.*)/)`:
the leftmost occurrence of `diff --git a/` starts the match and the greedy
first group extends to the last following ` b/`; returns the two groups. -/
def matchDiffGit (line : String) : Option (String × String) :=
  match dropToFirst "diff --git a/".data line.data with
  | none => none
  | some rest =>
    match splitAtLast " b/".data rest with
    | none => none
    | some (g1, g2) => some (⟨g1⟩, ⟨g2⟩)

/-- A parsed per-file diff section, as built by `parseDiffByFile` in the
BranchGraph component: display name, the (always empty) `stats` string, and
the raw lines following the file's `diff --git` boundary line. -/
structure DiffFile where
  name : String
  stats : String
  lines : List String
deriving DecidableEq, Repr

/-- The display name `parseDiffByFile` derives from a boundary line:
group 2 of the `diff --git a/X b/Y` pattern, falling back to the raw line. -/
def boundaryName (line : String) : String :=
  match matchDiffGit line with
  | some (_, g2) => g2
  | none => line

/-- One step of the `parseDiffByFile` loop: state is the finished files plus
the currently open file (if any). A boundary line closes the open file and
opens a new one; any other line is appended to the open file, or dropped
when no file is open yet. -/
def parseStep (acc : List DiffFile × Option DiffFile) (line : String) :
    List DiffFile × Option DiffFile :=
  if strStarts line "diff --git" then
    (match acc.2 with
      | some f => acc.1 ++ [f]
      | none => acc.1,
     some { name := boundaryName line, stats := "", lines := [] })
  else
    match acc.2 with
    | some f => (acc.1, some { f with lines := f.lines ++ [line] })
    | none => (acc.1, none)

/-- Closes the loop state: pushes the still-open file, if any. -/
def parseFinish (acc : List DiffFile × Option DiffFile) : List DiffFile :=
  match acc.2 with
  | some f => acc.1 ++ [f]
  | none => acc.1

/-- Runs the `parseDiffByFile` loop over a line list. -/
def parseLinesList (ls : List String) : List DiffFile :=
  parseFinish (ls.foldl parseStep ([], none))

/-- Transcribes `parseDiffByFile` from the BranchGraph component: splits the diff text on
newlines and sections it at `diff --git` boundary lines. -/
def parseDiffByFile (diff : String) : List DiffFile :=
  parseLinesList (splitLines diff)

/-- Added/removed line counts, as returned by `getDiffStats`. -/
structure DiffStats where
  added : Nat
  removed : Nat
deriving DecidableEq, Repr

/-- One step of the `getDiffStats` loop: `+` lines other than `+++` bump
`added`; `-` lines other than `---` bump `removed`. -/
def statsStep (acc : DiffStats) (line : String) : DiffStats :=
  let acc1 :=
    if strStarts line "+" && !strStarts line "+++" then
      { acc with added := acc.added + 1 }
    else acc
  if strStarts line "-" && !strStarts line "---" then
    { acc1 with removed := acc1.removed + 1 }
  else acc1

/-- Transcribes `getDiffStats` from the BranchGraph component. -/
def getDiffStats (lines : List String) : DiffStats :=
  lines.foldl statsStep ⟨0, 0⟩

/-- A `diff --git` boundary line, as tested by `parseDiffByFile`. -/
def isBoundary (l : String) : Bool := strStarts l "diff --git"

lemma lengthDropWhileLe (p : α → Bool) : ∀ l : List α, (l.dropWhile p).length ≤ l.length := by
  intro l
  induction l with
  | nil => simp
  | cons x xs ih =>
    rw [List.dropWhile_cons]
    split
    · exact Nat.le_succ_of_le ih
    · exact Nat.le_refl _

/-- Claim-side description of the sectioning: the segment opened by each
boundary line runs to (and excludes) the next boundary line; lines before the
first boundary line belong to no segment. -/
def splitFiles : List String → List (String × List String)
  | [] => []
  | l :: rest =>
    if isBoundary l then
      (l, rest.takeWhile fun x => !isBoundary x) ::
        splitFiles (rest.dropWhile fun x => !isBoundary x)
    else splitFiles rest
termination_by ls => ls.length
decreasing_by
  · exact Nat.lt_succ_of_le (lengthDropWhileLe _ rest)
  · exact Nat.lt_succ_of_le (Nat.le_refl _)

/-- Claim-side description of `parseDiffByFile`: one `DiffFile` per boundary
line, named by the boundary line's second path group (raw line on fallback),
holding exactly the lines up to the next boundary line. -/
def specParse (ls : List String) : List DiffFile :=
  (splitFiles ls).map fun bf => ⟨boundaryName bf.1, "", bf.2⟩

lemma splitFiles_nil : splitFiles [] = [] := by
  rw [splitFiles.eq_def]

lemma splitFiles_cons (l : String) (rest : List String) :
    splitFiles (l :: rest) =
      if isBoundary l then
        (l, rest.takeWhile fun x => !isBoundary x) ::
          splitFiles (rest.dropWhile fun x => !isBoundary x)
      else splitFiles rest := by
  rw [splitFiles.eq_def]

lemma specParse_cons_boundary {x : String} (rest : List String) (hx : isBoundary x = true) :
    specParse (x :: rest) =
      ⟨boundaryName x, "", rest.takeWhile fun a => !isBoundary a⟩ ::
        specParse (rest.dropWhile fun a => !isBoundary a) := by
  rw [specParse, splitFiles_cons, if_pos hx]
  simp [specParse]

lemma specParse_cons_not {x : String} (rest : List String) (hx : isBoundary x = false) :
    specParse (x :: rest) = specParse rest := by
  rw [specParse, splitFiles_cons, if_neg (by simp [hx])]
  rfl

lemma statsStep_eq (acc : DiffStats) (line : String) :
    statsStep acc line =
      ⟨acc.added + (if strStarts line "+" && !strStarts line "+++" then 1 else 0),
       acc.removed + (if strStarts line "-" && !strStarts line "---" then 1 else 0)⟩ := by
  unfold statsStep
  by_cases h1 : (strStarts line "+" && !strStarts line "+++") = true <;>
    by_cases h2 : (strStarts line "-" && !strStarts line "---") = true <;>
      simp [h1, h2]

lemma foldl_statsStep (lines : List String) : ∀ a r : Nat,
    lines.foldl statsStep ⟨a, r⟩ =
      ⟨a + (lines.filter fun l => strStarts l "+" && !strStarts l "+++").length,
       r + (lines.filter fun l => strStarts l "-" && !strStarts l "---").length⟩ := by
  induction lines with
  | nil => intro a r; simp
  | cons x xs ih =>
    intro a r
    rw [List.foldl_cons, statsStep_eq, ih]
    by_cases h1 : (strStarts x "+" && !strStarts x "+++") = true <;>
      by_cases h2 : (strStarts x "-" && !strStarts x "---") = true <;>
        simp [h1, h2, List.filter_cons, DiffStats.mk.injEq] <;> omega

lemma parseStep_not_boundary {line : String} (h : isBoundary line = false)
    (acc : List DiffFile × Option DiffFile) :
    parseStep acc line =
      match acc.2 with
      | some f => (acc.1, some { f with lines := f.lines ++ [line] })
      | none => (acc.1, none) := by
  unfold parseStep
  rw [if_neg]
  simpa [isBoundary] using h

lemma parseStep_boundary {line : String} (h : isBoundary line = true)
    (acc : List DiffFile × Option DiffFile) :
    parseStep acc line =
      (match acc.2 with
        | some f => acc.1 ++ [f]
        | none => acc.1,
       some { name := boundaryName line, stats := "", lines := [] }) := by
  unfold parseStep
  rw [if_pos]
  simpa [isBoundary] using h

lemma foldl_parseStep_some (ls : List String) : ∀ (files : List DiffFile) (f : DiffFile),
    parseFinish (ls.foldl parseStep (files, some f)) =
      files ++ ⟨f.name, f.stats, f.lines ++ ls.takeWhile fun x => !isBoundary x⟩ ::
        specParse (ls.dropWhile fun x => !isBoundary x) := by
  induction ls with
  | nil => intro files f; simp [parseFinish, specParse, splitFiles]
  | cons x rest ih =>
    intro files f
    by_cases hx : isBoundary x = true
    · rw [List.foldl_cons, parseStep_boundary hx, ih,
        List.takeWhile_cons_of_neg (by simp [hx]),
        List.dropWhile_cons_of_neg (by simp [hx]),
        specParse_cons_boundary rest hx]
      simp
    · rw [List.foldl_cons, parseStep_not_boundary (by simpa using hx), ih,
        List.takeWhile_cons_of_pos (by simp [hx]),
        List.dropWhile_cons_of_pos (by simp [hx])]
      simp

lemma foldl_parseStep_none (ls : List String) : ∀ files : List DiffFile,
    parseFinish (ls.foldl parseStep (files, none)) = files ++ specParse ls := by
  induction ls with
  | nil => intro files; simp [parseFinish, specParse, splitFiles]
  | cons x rest ih =>
    intro files
    by_cases hx : isBoundary x = true
    · rw [List.foldl_cons, parseStep_boundary hx, foldl_parseStep_some,
        specParse_cons_boundary rest hx]
      simp
    · rw [List.foldl_cons, parseStep_not_boundary (by simpa using hx), ih,
        specParse_cons_not rest (by simpa using hx)]

lemma parseLinesList_eq_specParse (ls : List String) : parseLinesList ls = specParse ls := by
  rw [parseLinesList]
  simpa using foldl_parseStep_none ls []

lemma splitFiles_fst : ∀ ls : List String,
    (splitFiles ls).map Prod.fst = ls.filter isBoundary := by
  intro ls
  induction ls using splitFiles.induct with
  | case1 => simp [splitFiles_nil]
  | case2 l rest hl ih =>
    rw [splitFiles_cons, if_pos hl, List.filter_cons_of_pos hl, List.map_cons, ih]
    congr 1
    conv_rhs => rw [← List.takeWhile_append_dropWhile (p := fun x => !isBoundary x) (l := rest)]
    rw [List.filter_append]
    have h0 : (rest.takeWhile fun x => !isBoundary x).filter isBoundary = [] := by
      rw [List.filter_eq_nil_iff]
      intro a ha
      have := List.mem_takeWhile_imp ha
      simpa using this
    rw [h0, List.nil_append]
  | case3 l rest hl ih =>
    rw [splitFiles_cons, if_neg hl, List.filter_cons_of_neg (by simpa using hl), ih]

lemma dropWhileIdem (p : α → Bool) : ∀ l : List α, (l.dropWhile p).dropWhile p = l.dropWhile p := by
  intro l
  induction l with
  | nil => simp
  | cons x xs ih =>
    by_cases hx : p x = true
    · rw [List.dropWhile_cons_of_pos hx, ih]
    · rw [List.dropWhile_cons_of_neg (by simpa using hx),
        List.dropWhile_cons_of_neg (by simpa using hx)]

lemma splitFiles_join : ∀ ls : List String,
    ((splitFiles ls).map Prod.snd).flatten =
      ((ls.dropWhile fun l => !isBoundary l).filter fun l => !isBoundary l) := by
  intro ls
  induction ls using splitFiles.induct with
  | case1 => simp [splitFiles_nil]
  | case2 l rest hl ih =>
    rw [splitFiles_cons, if_pos hl, List.map_cons, List.flatten_cons,
      List.dropWhile_cons_of_neg (by simp [hl]), List.filter_cons_of_neg (by simp [hl])]
    rw [dropWhileIdem] at ih
    rw [ih]
    conv_rhs => rw [← List.takeWhile_append_dropWhile (p := fun x => !isBoundary x) (l := rest)]
    rw [List.filter_append]
    congr 1
    show rest.takeWhile (fun x => !isBoundary x) =
      (rest.takeWhile fun x => !isBoundary x).filter fun x => !isBoundary x
    refine (List.filter_eq_self.mpr ?_).symm
    intro a ha
    have h2 := List.mem_takeWhile_imp ha
    simpa using h2
  | case3 l rest hl ih =>
    rw [splitFiles_cons, if_neg hl, ih, List.dropWhile_cons_of_pos (by simpa using hl)]

lemma boundaryName_eq_match (l : String) :
    boundaryName l = ((matchDiffGit l).map Prod.snd).getD l := by
  unfold boundaryName
  cases h : matchDiffGit l with
  | none => simp
  | some p => cases p with | mk a b => simp

/-- C1: `getDiffStats` counts as added exactly the lines beginning with `+`
excluding those beginning with `+++`, and as removed exactly the lines
beginning with `-` excluding those beginning with `---`; on the seven-line
example diff, parsing yields exactly one `DiffFile` named `x` with
added = 1 and removed = 1. -/
theorem c1_diff_stats_counts :
    (∀ lines : List String,
      getDiffStats lines =
        ⟨(lines.filter fun l => strStarts l "+" && !strStarts l "+++").length,
         (lines.filter fun l => strStarts l "-" && !strStarts l "---").length⟩) ∧
    parseDiffByFile
        "diff --git a/x b/x\nindex 123..456\n--- a/x\n+++ b/x\n@@ -1,1 +1,1 @@\n-bar\n+foo" =
      [⟨"x", "", ["index 123..456", "--- a/x", "+++ b/x", "@@ -1,1 +1,1 @@", "-bar", "+foo"]⟩] ∧
    getDiffStats ["index 123..456", "--- a/x", "+++ b/x", "@@ -1,1 +1,1 @@", "-bar", "+foo"] =
      ⟨1, 1⟩ := by
  refine ⟨fun lines => ?_, by decide, by decide⟩
  rw [getDiffStats, foldl_statsStep lines 0 0]
  simp

lemma splitFiles_no_boundary {ls : List String}
    (h : ∀ l ∈ ls, isBoundary l = false) : splitFiles ls = [] := by
  induction ls with
  | nil => exact splitFiles_nil
  | cons x xs ih =>
    rw [splitFiles_cons, if_neg (by simp [h x (by simp)])]
    exact ih fun l hl => h l (by simp [hl])

/-- C3: an input that is empty or contains no line beginning with
`diff --git` parses to the empty file list; in particular the empty string
parses to the empty list. -/
theorem c3_malformed_yields_empty (s : String)
    (h : ∀ l ∈ splitLines s, strStarts l "diff --git" = false) :
    parseDiffByFile s = [] ∧ parseDiffByFile "" = [] := by
  refine ⟨?_, by decide⟩
  rw [parseDiffByFile, parseLinesList_eq_specParse, specParse,
    splitFiles_no_boundary (fun l hl => h l hl)]
  rfl

theorem c3_malformed_yields_empty_witness :
    (∀ l ∈ splitLines "hello\nworld", strStarts l "diff --git" = false) ∧
      (parseDiffByFile "hello\nworld" = [] ∧ parseDiffByFile "" = []) :=
  ⟨by decide, c3_malformed_yields_empty "hello\nworld" (by decide)⟩

/-- C7: the parse splits at `diff --git` boundary lines; each output file's
name is the second path group of the boundary line's
`diff --git a/X b/Y` pattern, falling back to the raw boundary line when the
pattern does not match, and each output file's line sequence is exactly the
segment between its boundary line and the next. -/
theorem c7_boundary_split_and_names (s : String) :
    ((parseDiffByFile s).map fun f => f.name) =
      (((splitLines s).filter isBoundary).map fun l => ((matchDiffGit l).map Prod.snd).getD l) ∧
    ((parseDiffByFile s).map fun f => f.lines) = (splitFiles (splitLines s)).map Prod.snd := by
  rw [parseDiffByFile, parseLinesList_eq_specParse, specParse, ← splitFiles_fst]
  constructor
  · rw [List.map_map, List.map_map]
    refine List.map_congr_left fun bf _ => ?_
    simp [Function.comp, boundaryName_eq_match]
  · rw [List.map_map]
    rfl

/-- C10: `parseDiffByFile` partitions its input lines: it equals the
claim-side description `specParse` (each non-boundary line after the first
boundary line is attached to the file opened by the most recent preceding
boundary line), and the concatenation of all output line sequences is exactly
the non-boundary lines after the first boundary line, in input order, lines
before the first boundary line being discarded. -/
theorem c10_parse_partitions (s : String) :
    parseDiffByFile s = specParse (splitLines s) ∧
    ((parseDiffByFile s).map fun f => f.lines).flatten =
      (((splitLines s).dropWhile fun l => !isBoundary l).filter fun l => !isBoundary l) := by
  have hmain : parseDiffByFile s = specParse (splitLines s) := by
    rw [parseDiffByFile, parseLinesList_eq_specParse]
  refine ⟨hmain, ?_⟩
  rw [hmain, specParse, List.map_map, ← splitFiles_join]
  rfl

/-- Strips the literal `pat` from the front of `s`, or fails. -/
def stripPre (pat s : List Char) : Option (List Char) :=
  if pat.isPrefixOf s then some (s.drop pat.length) else none

/-- Splits off the maximal (possibly empty) digit prefix. -/
def digitsSplit : List Char → List Char × List Char
  | [] => ([], [])
  | c :: rest =>
    if c.isDigit then
      let dr := digitsSplit rest
      (c :: dr.1, dr.2)
    else ([], c :: rest)

/-- Numeric value of a digit string; models `parseInt` on the digit group. -/
def natOfDigits (ds : List Char) : Nat :=
  ds.foldl (fun acc c => acc * 10 + (c.toNat - 48)) 0

/-- Consumes an optional `,<digits>` group, as the regex `(?:,\d+)?` does:
taken exactly when a comma followed by a digit is present. -/
def skipCommaDigits (s : List Char) : List Char :=
  match s with
  | ',' :: c :: rest => if c.isDigit then (digitsSplit (c :: rest)).2 else ',' :: c :: rest
  | _ => s

/-- Matches `@@ -(\d+)(?:,\d+)? \+(\d+)(?:,\d+)? @@` at the start of `s`. -/
def matchHunkAt (s : List Char) : Option (Nat × Nat) :=
  match stripPre "@@ -".data s with
  | none => none
  | some s1 =>
    match digitsSplit s1 with
    | ([], _) => none
    | (d1, s2) =>
      match stripPre " +".data (skipCommaDigits s2) with
      | none => none
      | some s4 =>
        match digitsSplit s4 with
        | ([], _) => none
        | (d2, s5) =>
          match stripPre " @@".data (skipCommaDigits s5) with
          | none => none
          | some _ => some (natOfDigits d1, natOfDigits d2)

/-- Leftmost match of the hunk-header pattern anywhere in the character
list, as the unanchored JS regex search does. -/
def hunkSearch : List Char → Option (Nat × Nat)
  | [] => none
  | c :: rest =>
    match matchHunkAt (c :: rest) with
    | some r => some r
    | none => hunkSearch rest

/-- Models `line.match(/@@ -(\d+)(?:,\d+)? \+(\d+)(?:,\d+)? @@/)` returning
the two parsed starting line numbers. -/
def hunkMatch (line : String) : Option (Nat × Nat) := hunkSearch line.data

/-- The outcome of rendering one diff line: the old/new counters after the
line, and the displayed old/new line numbers (`none` when the gutter cell is
left blank). -/
structure LineRender where
  oldAfter : Nat
  newAfter : Nat
  oldNum : Option Nat
  newNum : Option Nat
deriving DecidableEq, Repr

/-- Per-line diff rendering step, transcribed from the BranchGraph renderer:
`@@` lines first (resetting the counters on a successful hunk-header match),
then the structural `index`/`---`/`+++` lines, then `+`, then `-`, then
context; the displayed number is the counter value before its
post-increment. -/
def renderLine (oldLine newLine : Nat) (line : String) : LineRender :=
  if strStarts line "@@" then
    match hunkMatch line with
    | some (a, c) => ⟨a, c, none, none⟩
    | none => ⟨oldLine, newLine, none, none⟩
  else if strStarts line "index" || strStarts line "---" || strStarts line "+++" then
    ⟨oldLine, newLine, none, none⟩
  else if strStarts line "+" then
    ⟨oldLine, newLine + 1, none, some newLine⟩
  else if strStarts line "-" then
    ⟨oldLine + 1, newLine, some oldLine, none⟩
  else
    ⟨oldLine + 1, newLine + 1, some oldLine, some newLine⟩

/-- Claim-side classification of a rendered diff line: hunk header with or
without a pattern match, structural header (`index`/`---`/`+++` lines, which
are not content lines), addition (`+` but not `+++`), deletion (`-` but not
`---`), or context. -/
inductive DiffLineClass where
  | hunkReset (a c : Nat)
  | hunkPlain
  | header
  | add
  | remove
  | context
deriving DecidableEq, Repr

/-- Claim-side classification function, following the claim's wording. -/
def classifyLine (line : String) : DiffLineClass :=
  if strStarts line "@@" then
    match hunkMatch line with
    | some (a, c) => .hunkReset a c
    | none => .hunkPlain
  else if strStarts line "index" || strStarts line "---" || strStarts line "+++" then
    .header
  else if strStarts line "+" && !strStarts line "+++" then
    .add
  else if strStarts line "-" && !strStarts line "---" then
    .remove
  else
    .context

/-- Claim-side rendering step: a matching hunk header resets the counters to
its parsed values; a non-matching hunk header and the structural headers
render without numbers and advance nothing; an addition is numbered with and
advances only the new-line counter; a deletion is numbered with and advances
only the old-line counter; a context line is numbered with and advances
both. -/
def renderLineSpec (oldLine newLine : Nat) (line : String) : LineRender :=
  match classifyLine line with
  | .hunkReset a c => ⟨a, c, none, none⟩
  | .hunkPlain => ⟨oldLine, newLine, none, none⟩
  | .header => ⟨oldLine, newLine, none, none⟩
  | .add => ⟨oldLine, newLine + 1, none, some newLine⟩
  | .remove => ⟨oldLine + 1, newLine, some oldLine, none⟩
  | .context => ⟨oldLine + 1, newLine + 1, some oldLine, some newLine⟩

/-- C6: the per-line diff renderer agrees with the claim's classification: a
matching `@@ -a,b +c,d @@` header resets the counters to `a` and `c`; a `+`
content line (not `+++`) is numbered with and advances only the new-line
counter; a `-` content line (not `---`) is numbered with and advances only
the old-line counter; every other content line advances both; a
non-matching `@@` line renders with no derived numbers. The concrete
conjuncts pin the hunk-header pattern down on matching and non-matching
inputs. -/
theorem c6_line_numbering (oldLine newLine : Nat) (line : String) :
    renderLine oldLine newLine line = renderLineSpec oldLine newLine line ∧
    hunkMatch "@@ -5,2 +7,3 @@" = some (5, 7) ∧
    hunkMatch "@@ -5 +7 @@" = some (5, 7) ∧
    hunkMatch "@@ mangled header" = none ∧
    renderLine 3 9 "@@ mangled header" = ⟨3, 9, none, none⟩ := by
  refine ⟨?_, by decide, by decide, by decide, by decide⟩
  unfold renderLine renderLineSpec classifyLine
  cases h1 : strStarts line "@@" with
  | true =>
    cases hm : hunkMatch line with
    | none => simp [h1, hm]
    | some v => cases v with | mk a c => simp [h1, hm]
  | false =>
    cases h2 : strStarts line "index" with
    | true => simp [h1, h2]
    | false =>
      cases h3 : strStarts line "---" with
      | true => simp [h1, h2, h3]
      | false =>
        cases h4 : strStarts line "+++" with
        | true => simp [h1, h2, h3, h4]
        | false =>
          cases h5 : strStarts line "+" with
          | true => simp [h1, h2, h3, h4, h5]
          | false =>
            cases h6 : strStarts line "-" with
            | true => simp [h1, h2, h3, h4, h5, h6]
            | false => simp [h1, h2, h3, h4, h5, h6]

/-- The mutating Git operations dispatched from the graph view's context
menu. -/
inductive GraphOp where
  | checkout
  | createBranch
  | resetTo
  | createTag
  | cherryPick
  | revert
  | stashSave
  | stashPop
  | mergeBranch
  | rebase
  | deleteBranch
  | renameBranch
deriving DecidableEq, Repr

/-- The observable success-path behaviour of one graph-view handler: the
backend command it invokes, whether it calls `fetchGraph()` (full re-fetch of
the commit list and graph rebuild) after success, and whether it calls the
parent `onRefresh` callback. -/
structure GraphHandler where
  command : String
  refetchesGraph : Bool
  notifiesParent : Bool
deriving DecidableEq, Repr

/-- Success paths of the twelve graph-view handlers, transcribed from the
BranchGraph component (`handleCheckout` … `handleRenameBranch`). -/
def graphHandler : GraphOp → GraphHandler
  | .checkout => ⟨"checkout_commit", true, true⟩
  | .createBranch => ⟨"create_branch_at", true, true⟩
  | .resetTo => ⟨"reset_to_commit", true, true⟩
  | .createTag => ⟨"create_tag", true, false⟩
  | .cherryPick => ⟨"cherry_pick", true, true⟩
  | .revert => ⟨"revert_commit", true, true⟩
  | .stashSave => ⟨"stash_save", false, true⟩
  | .stashPop => ⟨"stash_pop", true, true⟩
  | .mergeBranch => ⟨"merge_branch", true, true⟩
  | .rebase => ⟨"rebase_onto", true, true⟩
  | .deleteBranch => ⟨"delete_branch", true, true⟩
  | .renameBranch => ⟨"rename_branch", true, true⟩

/-- C2, counterexample: `handleStashSave` does not call `fetchGraph()` on
success, so not every mutating graph-view operation triggers the full
re-fetch. -/
theorem c2_stash_save_counterexample :
    (graphHandler GraphOp.stashSave).refetchesGraph = false ∧
      ¬ ∀ op : GraphOp, (graphHandler op).refetchesGraph = true := by
  refine ⟨rfl, fun h => ?_⟩
  have h1 := h GraphOp.stashSave
  simp [graphHandler] at h1

/-- C2, amended: every mutating graph-view operation except stash save
triggers, on success, the full re-fetch of the commit list and graph
rebuild; stash save only notifies the parent view. -/
theorem c2_refetch_amended :
    (∀ op : GraphOp, (graphHandler op).refetchesGraph = true ↔ op ≠ GraphOp.stashSave) ∧
      (graphHandler GraphOp.stashSave).notifiesParent = true := by
  refine ⟨fun op => ?_, rfl⟩
  cases op <;> simp [graphHandler]

/-- A stored local repository, from the zustand local-repos store. -/
structure LocalRepo where
  id : String
  path : String
  name : String
  addedAt : String
deriving DecidableEq, Repr

/-- The local-repos store state. -/
structure LocalReposState where
  repos : List LocalRepo
  selectedRepoId : Option String
deriving DecidableEq, Repr

/-- The store's initial state. -/
def initialRepos : LocalReposState := ⟨[], none⟩

/-- Transcribes `addRepo` from the store. The freshly generated `crypto.randomUUID()` id
and the `new Date().toISOString()` timestamp are nondeterministic inputs and
are passed as parameters. -/
def addRepo (newId newAddedAt path name : String) (s : LocalReposState) : LocalReposState :=
  match s.repos.find? (fun r => r.path == path) with
  | some existing => { s with selectedRepoId := some existing.id }
  | none =>
    { repos := s.repos ++ [⟨newId, path, name, newAddedAt⟩],
      selectedRepoId := some newId }

/-- Transcribes `removeRepo` from the store. -/
def removeRepo (id : String) (s : LocalReposState) : LocalReposState :=
  { repos := s.repos.filter fun r => r.id != id,
    selectedRepoId := if s.selectedRepoId = some id then none else s.selectedRepoId }

/-- Transcribes `selectRepo` from the store. -/
def selectRepo (id : Option String) (s : LocalReposState) : LocalReposState :=
  { s with selectedRepoId := id }

/-- States reachable from the initial store state by `addRepo`,
`removeRepo` and `selectRepo` calls. -/
inductive ReachableRepos : LocalReposState → Prop where
  | init : ReachableRepos initialRepos
  | add {s} (newId newAddedAt path name : String) :
      ReachableRepos s → ReachableRepos (addRepo newId newAddedAt path name s)
  | remove {s} (id : String) : ReachableRepos s → ReachableRepos (removeRepo id s)
  | select {s} (id : Option String) : ReachableRepos s → ReachableRepos (selectRepo id s)

/-- C9: in every reachable store state the repo paths are pairwise distinct,
and `addRepo` on an already-present path leaves the repo list unchanged and
selects the existing entry's id. -/
theorem c9_store_paths_unique (s : LocalReposState) (h : ReachableRepos s) :
    s.repos.Pairwise (fun a b => a.path ≠ b.path) ∧
      ∀ (newId newAddedAt path name : String) (r : LocalRepo),
        s.repos.find? (fun x => x.path == path) = some r →
        addRepo newId newAddedAt path name s = { s with selectedRepoId := some r.id } := by
  have hdup : ∀ t : LocalReposState, ReachableRepos t →
      t.repos.Pairwise fun a b => a.path ≠ b.path := by
    intro t ht
    induction ht with
    | init => exact List.Pairwise.nil
    | add newId newAddedAt path name hprev ih =>
      rename_i s1
      unfold addRepo
      cases hf : s1.repos.find? (fun r => r.path == path) with
      | some existing => simpa only [hf] using ih
      | none =>
        simp only [hf]
        rw [List.pairwise_append]
        refine ⟨ih, List.pairwise_singleton _ _, ?_⟩
        intro a ha b hb
        have hb2 : b = ⟨newId, path, name, newAddedAt⟩ := by simpa using hb
        have hne := List.find?_eq_none.mp hf a ha
        subst hb2
        simpa using hne
    | remove id _ ih =>
      exact ih.sublist (List.filter_sublist _)
    | select id _ ih => exact ih
  refine ⟨hdup s h, fun newId newAddedAt path name r hr => ?_⟩
  rw [addRepo, hr]

theorem c9_store_paths_unique_witness :
    ReachableRepos (addRepo "id1" "t1" "/a" "A" initialRepos) ∧
      ((addRepo "id1" "t1" "/a" "A" initialRepos).repos.Pairwise
          (fun a b => a.path ≠ b.path) ∧
        addRepo "id2" "t2" "/a" "B" (addRepo "id1" "t1" "/a" "A" initialRepos) =
          { addRepo "id1" "t1" "/a" "A" initialRepos with selectedRepoId := some "id1" }) := by
  have hre : ReachableRepos (addRepo "id1" "t1" "/a" "A" initialRepos) :=
    ReachableRepos.add "id1" "t1" "/a" "A" ReachableRepos.init
  have h := c9_store_paths_unique _ hre
  refine ⟨hre, h.1, ?_⟩
  have h2 := h.2 "id2" "t2" "/a" "B" ⟨"id1", "/a", "A", "t1"⟩ (by decide)
  simpa using h2

/-- The debounce delay, in milliseconds, of the `git-changed` listener. -/
def gitChangedDelay : Nat := 300

/-- Event-sequence semantics of the debounced `git-changed` listener: each
notification at time `t` cancels the pending timer and schedules a re-fetch
at `t + delay`; a scheduled re-fetch fires only when no further notification
arrives strictly before it. Returns the times at which re-fetches run, for
notifications given in arrival order. -/
def debounceFires (delay : Nat) : List Nat → List Nat
  | [] => []
  | [t] => [t + delay]
  | t1 :: t2 :: rest =>
    if t2 < t1 + delay then debounceFires delay (t2 :: rest)
    else (t1 + delay) :: debounceFires delay (t2 :: rest)

/-- C5: a burst of `git-changed` notifications in which each notification
arrives less than 300 ms after the previous one produces exactly one
re-fetch, executed 300 ms after the burst's final notification. -/
theorem c5_debounce_burst (t : Nat) (ts : List Nat)
    (h : List.Chain' (fun a b => b < a + gitChangedDelay) (t :: ts)) :
    debounceFires gitChangedDelay (t :: ts) =
      [(t :: ts).getLast (List.cons_ne_nil t ts) + gitChangedDelay] := by
  induction ts generalizing t with
  | nil => rfl
  | cons t2 rest ih =>
    have h1 : t2 < t + gitChangedDelay := (List.chain'_cons.mp h).1
    have h2 : List.Chain' (fun a b => b < a + gitChangedDelay) (t2 :: rest) :=
      (List.chain'_cons.mp h).2
    rw [debounceFires, if_pos h1, ih t2 h2]
    simp [List.getLast_cons]

theorem c5_debounce_burst_witness :
    List.Chain' (fun a b => b < a + gitChangedDelay) [0, 100, 250] ∧
      debounceFires gitChangedDelay [0, 100, 250] = [550] :=
  ⟨by norm_num [List.chain'_cons, gitChangedDelay],
   (c5_debounce_burst 0 [100, 250]
      (by norm_num [List.chain'_cons, gitChangedDelay])).trans (by decide)⟩

/-- A commit as delivered by the backend `get_graph_log` command
(`GraphCommit` in useTauriGit.ts); `column` and `color` are assigned by the
backend. -/
structure GraphCommit where
  hash : String
  hash_short : String
  message : String
  author : String
  email : String
  date : String
  parents : List String
  branches : List String
  tags : List String
  column : Nat
  color : Nat
deriving DecidableEq, Repr

/-- The fixed eight-color palette of the BranchGraph component. -/
def COLORS : List String :=
  ["#3b82f6", "#22c55e", "#f59e0b", "#ef4444", "#8b5cf6", "#ec4899", "#06b6d4", "#f97316"]

/-- Layout constants of the BranchGraph component, over ℚ (exact model of the
JS numeric expressions involved). -/
def ROW_HEIGHT : ℚ := 24

def COLUMN_WIDTH : ℚ := 16

def GRAPH_PADDING : ℚ := 6

/-- Vertical center of the node at row `i`. -/
def rowY (i : Nat) : ℚ := GRAPH_PADDING + i * ROW_HEIGHT + ROW_HEIGHT / 2

/-- Horizontal center of a node in column `c`. -/
def colX (c : Nat) : ℚ := GRAPH_PADDING + c * COLUMN_WIDTH

/-- One rendered connector: endpoint geometry, the child/parent hashes that
key it, `bend = none` for the straight `<line>` element and
`bend = some midY` for the curved `<path>` with control points at height
`midY`, and the stroke color. -/
structure Conn where
  childHash : String
  parentHash : String
  x1 : ℚ
  y1 : ℚ
  x2 : ℚ
  y2 : ℚ
  bend : Option ℚ
  color : String
deriving DecidableEq, Repr

/-- Transcribes the `commitIndexMap` lookup: the row index recorded for a hash after the
`forEach`/`Map.set` pass, i.e. the hash's last row. -/
def lastIndexOf (h : String) : List GraphCommit → Option Nat
  | [] => none
  | c :: rest =>
    match lastIndexOf h rest with
    | some i => some (i + 1)
    | none => if c.hash = h then some 0 else none

/-- The connector `renderConnections` pushes for one `(commit, parent)` pair,
transcribed from the component: `none` when the parent hash is not in the
index map; a straight segment when the columns agree; otherwise a cubic curve
with control points at `y1 + (y2 - y1) * 0.3`. -/
def connFor (cs : List GraphCommit) (i : Nat) (c : GraphCommit) (p : String) : Option Conn :=
  match lastIndexOf p cs with
  | none => none
  | some pidx =>
    match cs[pidx]? with
    | none => none
    | some pc =>
      if c.column = pc.column then
        some ⟨c.hash, p, colX c.column, rowY i, colX pc.column, rowY pidx, none,
          COLORS.getD (c.color % COLORS.length) ""⟩
      else
        some ⟨c.hash, p, colX c.column, rowY i, colX pc.column, rowY pidx,
          some (rowY i + (rowY pidx - rowY i) * (3 / 10)),
          COLORS.getD (c.color % COLORS.length) ""⟩

/-- All connectors pushed for the commit at row `i`. -/
def connsOfCommit (cs : List GraphCommit) (i : Nat) (c : GraphCommit) : List Conn :=
  c.parents.filterMap (connFor cs i c)

/-- The connector list accumulated from row `i` over the remaining commits. -/
def connsFrom (cs : List GraphCommit) : Nat → List GraphCommit → List Conn
  | _, [] => []
  | i, c :: rest => connsOfCommit cs i c ++ connsFrom cs (i + 1) rest

/-- Transcribes `renderConnections` from the BranchGraph component. -/
def renderConnections (cs : List GraphCommit) : List Conn := connsFrom cs 0 cs

/-- Selects the connectors attributable to the `(commit at row i, parent p)`
pair: child hash, parent hash, and source height identify the pair. -/
def connPred (chash p : String) (i : Nat) (e : Conn) : Bool :=
  decide (e.childHash = chash ∧ e.parentHash = p ∧ e.y1 = rowY i)

/-- Claim-side connector for a pair whose parent sits at a later row: a
straight vertical segment when the two columns agree, otherwise a curved
connector whose control points lie at 30% of the vertical distance between
the two rows. -/
def expectedConn (i : Nat) (c : GraphCommit) (pidx : Nat) (pc : GraphCommit) (p : String) : Conn :=
  if c.column = pc.column then
    ⟨c.hash, p, colX c.column, rowY i, colX pc.column, rowY pidx, none,
      COLORS.getD (c.color % COLORS.length) ""⟩
  else
    ⟨c.hash, p, colX c.column, rowY i, colX pc.column, rowY pidx,
      some (rowY i + (rowY pidx - rowY i) * (3 / 10)),
      COLORS.getD (c.color % COLORS.length) ""⟩

lemma rowY_inj {i j : Nat} (h : rowY i = rowY j) : i = j := by
  have h2 : (i : ℚ) * 24 = (j : ℚ) * 24 := by
    unfold rowY ROW_HEIGHT GRAPH_PADDING at h
    linarith
  have h3 : (i : ℚ) = (j : ℚ) := by linarith
  exact_mod_cast h3

lemma connFor_fields {cs : List GraphCommit} {i : Nat} {c : GraphCommit} {p : String}
    {e : Conn} (h : connFor cs i c p = some e) :
    e.childHash = c.hash ∧ e.parentHash = p ∧ e.y1 = rowY i := by
  unfold connFor at h
  cases hl : lastIndexOf p cs with
  | none => simp [hl] at h
  | some pidx =>
    simp only [hl] at h
    cases hg : cs[pidx]? with
    | none => simp [hg] at h
    | some pc =>
      simp only [hg] at h
      by_cases hcol : c.column = pc.column
      · rw [if_pos hcol] at h
        cases h
        exact ⟨rfl, rfl, rfl⟩
      · rw [if_neg hcol] at h
        cases h
        exact ⟨rfl, rfl, rfl⟩

lemma filter_connsOfCommit_other {cs : List GraphCommit} {j i : Nat} {d : GraphCommit}
    {chash p : String} (hne : j ≠ i) :
    (connsOfCommit cs j d).filter (connPred chash p i) = [] := by
  rw [List.filter_eq_nil_iff]
  intro e he
  rw [connsOfCommit, List.mem_filterMap] at he
  obtain ⟨q, _, hq⟩ := he
  have hf := (connFor_fields hq).2.2
  rw [connPred]
  simp only [decide_eq_true_eq, not_and]
  intro _ _
  rw [hf]
  exact fun hr => hne (rowY_inj hr)

lemma filter_connsOfCommit_self {cs : List GraphCommit} {i : Nat} {c : GraphCommit}
    {p : String} {econn : Conn} (hconn : connFor cs i c p = some econn) :
    ∀ qs : List String,
      (qs.filterMap (connFor cs i c)).filter (connPred c.hash p i) =
        List.replicate (qs.count p) econn := by
  intro qs
  induction qs with
  | nil => simp
  | cons q rest ih =>
    rw [List.filterMap_cons]
    by_cases hq : q = p
    · subst hq
      rw [hconn, List.filter_cons]
      have hfields := connFor_fields hconn
      have hpred : connPred c.hash q i econn = true := by
        rw [connPred]
        simp [hfields.1, hfields.2.1, hfields.2.2]
      rw [if_pos hpred, ih, List.count_cons_self]
      rfl
    · cases hcf : connFor cs i c q with
      | none =>
        rw [ih, List.count_cons_of_ne fun hpq => hq hpq.symm]
      | some e =>
        rw [List.filter_cons]
        have hfields := connFor_fields hcf
        have hpred : connPred c.hash p i e = false := by
          rw [connPred]
          simp only [decide_eq_false_iff_not, not_and]
          intro _
          rw [hfields.2.1]
          exact fun hqp => absurd hqp hq
        rw [if_neg (by simp [hpred]), ih, List.count_cons_of_ne fun hpq => hq hpq.symm]

lemma filter_connsFrom {cs : List GraphCommit} {i : Nat} {c : GraphCommit}
    {p : String} {econn : Conn} (hc : cs[i]? = some c)
    (hcount : c.parents.count p = 1) (hconn : connFor cs i c p = some econn) :
    ∀ (suffix : List GraphCommit) (j : Nat), suffix = cs.drop j →
      (connsFrom cs j suffix).filter (connPred c.hash p i) =
        if j ≤ i then [econn] else [] := by
  intro suffix
  induction suffix with
  | nil =>
    intro j hj
    have hlen : cs.length ≤ j := List.drop_eq_nil_iff.mp hj.symm
    have hi : i < cs.length := (List.getElem?_eq_some_iff.mp hc).1
    rw [connsFrom, List.filter_nil, if_neg (by omega)]
  | cons d rest ih =>
    intro j hj
    have hdj : cs[j]? = some d := by
      have h0 : (cs.drop j)[0]? = some d := by rw [← hj]; simp
      rwa [List.getElem?_drop, Nat.add_zero] at h0
    have hrest : rest = cs.drop (j + 1) := by
      have h1 : cs.drop (j + 1) = (cs.drop j).drop 1 := by
        rw [List.drop_drop, Nat.add_comm]
      rw [h1, ← hj]
      rfl
    rw [connsFrom, List.filter_append]
    by_cases hji : j = i
    · subst hji
      have hdc : d = c := by
        rw [hdj] at hc
        exact Option.some.inj hc
      rw [connsOfCommit, hdc, filter_connsOfCommit_self hconn c.parents, hcount,
        ih (j + 1) hrest, if_neg (by omega), if_pos (Nat.le_refl j)]
      rfl
    · rw [filter_connsOfCommit_other hji, List.nil_append, ih (j + 1) hrest]
      by_cases hle : j ≤ i
      · rw [if_pos (by omega), if_pos hle]
      · rw [if_neg (by omega), if_neg hle]

lemma connsFrom_parent_absent {cs : List GraphCommit} {p : String}
    (habs : lastIndexOf p cs = none) :
    ∀ (suffix : List GraphCommit) (j : Nat) (e : Conn),
      e ∈ connsFrom cs j suffix → e.parentHash ≠ p := by
  intro suffix
  induction suffix with
  | nil => intro j e he; exact absurd he (by simp [connsFrom])
  | cons d rest ih =>
    intro j e he
    rw [connsFrom, List.mem_append] at he
    cases he with
    | inl hmem =>
      rw [connsOfCommit, List.mem_filterMap] at hmem
      obtain ⟨q, _, hq⟩ := hmem
      have hfield := (connFor_fields hq).2.1
      rw [hfield]
      intro hqp
      subst hqp
      rw [connFor, habs] at hq
      exact absurd hq (by simp)
    | inr hmem => exact ih (j + 1) e hmem

/-- C4: for every `(commit, parent)` pair whose parent hash occupies a later
row, `renderConnections` renders exactly one connector for the pair — the
straight vertical segment when the two columns agree, otherwise the curved
connector whose control points lie at 30% of the vertical distance between
the rows — and when the parent hash is absent from the supplied commit
window no connector carrying that parent hash is rendered at all. -/
theorem c4_edge_rendering (cs : List GraphCommit) (i pidx : Nat) (c pc : GraphCommit)
    (p : String) (cs2 : List GraphCommit) (p2 : String)
    (hc : cs[i]? = some c) (hmem : p ∈ c.parents) (hcount : c.parents.count p = 1)
    (hlast : lastIndexOf p cs = some pidx) (hlater : i < pidx)
    (hpc : cs[pidx]? = some pc) (habs : lastIndexOf p2 cs2 = none) :
    (renderConnections cs).filter (connPred c.hash p i) = [expectedConn i c pidx pc p] ∧
      ∀ e ∈ renderConnections cs2, e.parentHash ≠ p2 := by
  constructor
  · have hconn : connFor cs i c p = some (expectedConn i c pidx pc p) := by
      rw [expectedConn]
      by_cases hcol : c.column = pc.column
      · simp only [connFor, hlast, hpc, if_pos hcol]
      · simp only [connFor, hlast, hpc, if_neg hcol]
    rw [renderConnections, filter_connsFrom hc hcount hconn cs 0 rfl,
      if_pos (Nat.zero_le i)]
  · exact fun e he => connsFrom_parent_absent habs cs2 0 e he

/-- Concrete child commit for the edge-rendering witness. -/
def wGraphA : GraphCommit := ⟨"a", "a", "m", "au", "e", "d", ["b"], [], [], 0, 0⟩

/-- Concrete parent commit for the edge-rendering witness. -/
def wGraphB : GraphCommit := ⟨"b", "b", "m2", "au", "e", "d", [], [], [], 1, 1⟩

theorem c4_edge_rendering_witness :
    (renderConnections [wGraphA, wGraphB]).filter (connPred wGraphA.hash "b" 0) =
        [expectedConn 0 wGraphA 1 wGraphB "b"] ∧
      ∀ e ∈ renderConnections [wGraphA], e.parentHash ≠ "b" :=
  c4_edge_rendering [wGraphA, wGraphB] 0 1 wGraphA wGraphB "b" [wGraphA] "b"
    (by decide) (by decide) (by decide) (by decide) (by decide) (by decide) (by decide)

/-- Modelled from the spec: the input commit of the CommitGraphBuilder of
spec §4.1. The builder runs in the Rust backend (`get_graph_log`), which is
not among the reviewed sources; only its output type (`GraphCommit.column`)
is visible in the frontend. -/
structure SpecCommit where
  hash : String
  parents : List String
deriving DecidableEq, Repr

/-- Modelled from the spec: the positioned commit produced by the builder. -/
structure PositionedCommit where
  hash : String
  row : Nat
  column : Nat
  colorIndex : Nat
deriving DecidableEq, Repr

/-- Modelled from the spec: one lane slot — free, or reserved by a pending
parent hash carrying a color. -/
abbrev Lane := Option (String × Nat)

/-- Modelled from the spec: the slot reserved for a hash, with its color. -/
def findLane : List Lane → String → Option (Nat × Nat)
  | [], _ => none
  | some xk :: rest, h =>
    if xk.1 = h then some (0, xk.2)
    else (findLane rest h).map fun ik => (ik.1 + 1, ik.2)
  | none :: rest, h => (findLane rest h).map fun ik => (ik.1 + 1, ik.2)

/-- Modelled from the spec: the lowest free column index (first-fit),
growing the lane list when all slots are occupied. -/
def freeIdx : List Lane → Nat
  | [] => 0
  | none :: _ => 0
  | some _ :: rest => freeIdx rest + 1

/-- Modelled from the spec: writes a reservation, extending the list as
needed. -/
def setLane : List Lane → Nat → (String × Nat) → List Lane
  | [], i, v => List.replicate i none ++ [some v]
  | _ :: rest, 0, v => some v :: rest
  | s :: rest, i + 1, v => s :: setLane rest i v

/-- Modelled from the spec: frees a consumed slot. -/
def clearLane : List Lane → Nat → List Lane
  | [], _ => []
  | _ :: rest, 0 => none :: rest
  | s :: rest, i + 1 => s :: clearLane rest i

/-- Modelled from the spec: reserves each additional (non-first) parent in a
newly allocated column with a fresh color, unless already reserved. -/
def reserveRest : List Lane → Nat → List String → List Lane × Nat
  | lanes, ncolor, [] => (lanes, ncolor)
  | lanes, ncolor, p :: ps =>
    if (findLane lanes p).isSome then reserveRest lanes ncolor ps
    else reserveRest (setLane lanes (freeIdx lanes) (p, ncolor % 8)) (ncolor + 1) ps

/-- Modelled from the spec: parent reservation — the first parent continues
the commit's own column and color unless already reserved elsewhere; each
additional parent fans out into a newly allocated column. -/
def reserveParents (lanes : List Lane) (ownCol ownColor ncolor : Nat) :
    List String → List Lane × Nat
  | [] => (lanes, ncolor)
  | p :: ps =>
    if (findLane lanes p).isSome then reserveRest lanes ncolor ps
    else reserveRest (setLane lanes ownCol (p, ownColor)) ncolor ps

/-- Modelled from the spec: processes one commit — consume its reserved slot
if any, otherwise take the lowest free column with a fresh palette color;
then reserve its parents. Returns the new lane state and color counter plus
the commit's assigned `(column, colorIndex)`. -/
def buildStep (lanes : List Lane) (ncolor : Nat) (c : SpecCommit) :
    (List Lane × Nat) × Nat × Nat :=
  match findLane lanes c.hash with
  | some ik =>
    (reserveParents (clearLane lanes ik.1) ik.1 ik.2 ncolor c.parents, ik.1, ik.2)
  | none =>
    (reserveParents lanes (freeIdx lanes) (ncolor % 8) (ncolor + 1) c.parents,
      freeIdx lanes, ncolor % 8)

/-- Modelled from the spec: the single forward pass over the rows. -/
def buildAux (lanes : List Lane) (ncolor row : Nat) : List SpecCommit → List PositionedCommit
  | [] => []
  | c :: rest =>
    (⟨c.hash, row, (buildStep lanes ncolor c).2.1, (buildStep lanes ncolor c).2.2⟩ :
        PositionedCommit) ::
      buildAux (buildStep lanes ncolor c).1.1 (buildStep lanes ncolor c).1.2 (row + 1) rest

/-- Modelled from the spec: `build(commits)` of spec §4.1. -/
def build (cs : List SpecCommit) : List PositionedCommit := buildAux [] 0 0 cs

/-- C8, counterexample: the commit list `[a (parent p, absent), b (root)]`
satisfies the claim's precondition — every commit has at most one parent —
yet the builder places `b` in column 1, because the pending reservation for
the truncated parent `p` occupies column 0. -/
theorem c8_linear_counterexample :
    (build [⟨"a", ["p"]⟩, ⟨"b", []⟩]).map (fun pc => pc.column) = [0, 1] ∧
      (∀ c ∈ ([⟨"a", ["p"]⟩, ⟨"b", []⟩] : List SpecCommit), c.parents.length ≤ 1) ∧
      ¬ ∀ cs : List SpecCommit, (∀ c ∈ cs, c.parents.length ≤ 1) →
          ∀ pc ∈ build cs, pc.column = 0 := by
  refine ⟨by decide, by decide, fun h => ?_⟩
  have h2 := h [⟨"a", ["p"]⟩, ⟨"b", []⟩] (by decide) ⟨"b", 1, 1, 1⟩ (by decide)
  exact absurd h2 (by decide)

/-- A single linear chain, given children-first: each commit's parent list is
exactly the next row's hash, and the last commit has at most one parent
(its parent may lie outside the window). -/
def isChain : List SpecCommit → Prop
  | [] => True
  | [c] => c.parents.length ≤ 1
  | c :: c2 :: rest => c.parents = [c2.hash] ∧ isChain (c2 :: rest)

lemma buildStep_reserved (hd : SpecCommit) (k ncolor : Nat) :
    buildStep [some (hd.hash, k)] ncolor hd =
      (reserveParents [none] 0 k ncolor hd.parents, 0, k) := by
  simp [buildStep, findLane, clearLane]

lemma reserveParents_single (p : String) (ownColor ncolor : Nat) :
    reserveParents [none] 0 ownColor ncolor [p] = ([some (p, ownColor)], ncolor) := by
  simp [reserveParents, findLane, reserveRest, setLane]

lemma buildAux_nil (lanes : List Lane) (ncolor row : Nat) :
    buildAux lanes ncolor row [] = [] := rfl

lemma buildAux_cons (lanes : List Lane) (ncolor row : Nat) (c : SpecCommit)
    (rest : List SpecCommit) :
    buildAux lanes ncolor row (c :: rest) =
      (⟨c.hash, row, (buildStep lanes ncolor c).2.1, (buildStep lanes ncolor c).2.2⟩ :
          PositionedCommit) ::
        buildAux (buildStep lanes ncolor c).1.1 (buildStep lanes ncolor c).1.2 (row + 1)
          rest := rfl

lemma buildAux_chain_reserved :
    ∀ (rest : List SpecCommit) (hd : SpecCommit) (k ncolor row : Nat),
      isChain (hd :: rest) →
      ∀ pc ∈ buildAux [some (hd.hash, k)] ncolor row (hd :: rest), pc.column = 0 := by
  intro rest
  induction rest with
  | nil =>
    intro hd k ncolor row _ pc hpc
    rw [buildAux_cons, buildStep_reserved, buildAux_nil] at hpc
    rw [List.mem_singleton.mp hpc]
  | cons c2 rest2 ih =>
    intro hd k ncolor row hch pc hpc
    have hch2 : hd.parents = [c2.hash] ∧ isChain (c2 :: rest2) := hch
    rw [buildAux_cons, buildStep_reserved, hch2.1, reserveParents_single] at hpc
    rcases List.mem_cons.mp hpc with h1 | h1
    · rw [h1]
    · exact ih c2 k ncolor (row + 1) hch2.2 pc h1

/-- C8, amended: for every commit list forming a single linear chain —
commit `i`'s parent list is exactly commit `i+1`'s hash, the last commit
having at most one parent — the builder assigns column 0 to every commit. -/
theorem c8_linear_amended (cs : List SpecCommit) (h : isChain cs) :
    ∀ pc ∈ build cs, pc.column = 0 := by
  cases cs with
  | nil => intro pc hpc; simp [build, buildAux] at hpc
  | cons c rest =>
    intro pc hpc
    have hstep : buildStep [] 0 c =
        (reserveParents [] 0 (0 % 8) (0 + 1) c.parents, 0, 0 % 8) := by
      simp [buildStep, findLane, freeIdx]
    cases rest with
    | nil =>
      rw [build, buildAux_cons, hstep, buildAux_nil] at hpc
      rw [List.mem_singleton.mp hpc]
    | cons c2 rest2 =>
      have hch : c.parents = [c2.hash] ∧ isChain (c2 :: rest2) := h
      have hres : reserveParents [] 0 (0 % 8) (0 + 1) c.parents =
          ([some (c2.hash, 0 % 8)], 0 + 1) := by
        rw [hch.1]
        simp [reserveParents, findLane, reserveRest, setLane]
      rw [build, buildAux_cons, hstep, hres] at hpc
      rcases List.mem_cons.mp hpc with h1 | h1
      · rw [h1]
      · exact buildAux_chain_reserved rest2 c2 (0 % 8) (0 + 1) 1 hch.2 pc h1

theorem c8_linear_amended_witness :
    isChain [⟨"c3", ["c2"]⟩, ⟨"c2", ["c1"]⟩, ⟨"c1", []⟩] ∧
      ∀ pc ∈ build [⟨"c3", ["c2"]⟩, ⟨"c2", ["c1"]⟩, ⟨"c1", []⟩], pc.column = 0 :=
  ⟨⟨rfl, rfl, Nat.zero_le 1⟩, c8_linear_amended _ ⟨rfl, rfl, Nat.zero_le 1⟩⟩

end GitManager
